import Mathlib

/-!
Verification of the concurrent task-execution engine specified for the
LearnPython repository (threading / multiprocessing / queue demonstrations).
The engine itself (WorkerPool, Future, BoundedQueue, CountingSemaphore) is a
design distilled in the specification; the repository's source files only use
the Python standard-library primitives, so the engine components are modelled
here from the specification's contracts, while the producer/consumer and
shared-array demonstrations are embedded directly from
src/30_multiprocessing.py.
-/

namespace LearnPython

/-- Modelled from the spec: error taxonomy of §7 — QueueClosed, PoolNotRunning,
Timeout, Cancelled, TaskError (wrapping the task body's original error
message without loss of information). -/
inductive EngineError where
  | queueClosed
  | poolNotRunning
  | timeout
  | cancelledError
  | taskError (msg : String)
deriving DecidableEq

/-- Modelled from the spec: Future is a tri-state result cell
{Pending, Resolved(R), Failed(Error)} plus a Cancelled terminal state
reachable only from Pending (§3). The inductive makes the invariant "at most
one of {value, error, cancelled} is meaningfully set" structural. -/
inductive FutureState (R : Type) where
  | pending
  | resolved (v : R)
  | failed (e : EngineError)
  | cancelled
deriving DecidableEq

variable {R : Type} {α : Type}

/-- Modelled from the spec: resolve(value) is a one-time transition from
Pending; on an already-terminal Future it is a no-op (§4.2). -/
def FutureState.resolve : FutureState R → R → FutureState R
  | .pending, v => .resolved v
  | s, _ => s

/-- Modelled from the spec: fail(err) is a one-time transition from Pending;
on an already-terminal Future it is a no-op (§4.2). -/
def FutureState.fail : FutureState R → EngineError → FutureState R
  | .pending, e => .failed e
  | s, _ => s

/-- Modelled from the spec: cancel() is a one-time transition from Pending;
on an already-terminal Future it is a no-op (§4.2). -/
def FutureState.cancel : FutureState R → FutureState R
  | .pending => .cancelled
  | s => s

/-- Modelled from the spec: isDone() — non-blocking poll for a terminal
state (§4.2). -/
def FutureState.isDone : FutureState R → Bool
  | .pending => false
  | _ => true

/-- Modelled from the spec: get(timeout) observed at the instant the deadline
expires or the Future is terminal. Blocking is abstracted away: a Future still
Pending when the deadline elapses yields a Timeout error to the waiter; a
terminal Future yields its stored outcome. The second component is the
Future's state after the call (get never mutates the cell). -/
def FutureState.get : FutureState R → Except EngineError R × FutureState R
  | .pending => (.error .timeout, .pending)
  | .resolved v => (.ok v, .resolved v)
  | .failed e => (.error e, .failed e)
  | .cancelled => (.error .cancelledError, .cancelled)

/-- C5: Future.get whose timeout expires returns a Timeout error without
mutating the Future (frame property: get never mutates any state), and a
subsequent get on the same Future after the task resolves it still returns
the real result — timing out the waiter never cancels, fails, or otherwise
transitions the Future. -/
theorem future_get_timeout_frame (v : R) (s : FutureState R) :
    (FutureState.pending (R := R)).get = (.error .timeout, .pending) ∧
    s.get.2 = s ∧
    (((FutureState.pending (R := R)).get.2).resolve v).get = (.ok v, .resolved v) := by
  refine ⟨rfl, ?_, rfl⟩
  cases s <;> rfl

/-- C6: each of resolve/fail/cancel transitions a Pending Future to a terminal
state, and calling any of the three on an already-terminal Future is a no-op
that leaves the terminal state (with its stored value or error) unchanged; at
most one of {value, error, cancelled} is ever set, structurally, since
`FutureState` is a sum. -/
theorem future_transitions_idempotent (s : FutureState R) (v : R)
    (e : EngineError) (h : s.isDone = true) :
    s.resolve v = s ∧ s.fail e = s ∧ s.cancel = s ∧
    ((FutureState.pending (R := R)).resolve v).isDone = true ∧
    ((FutureState.pending (R := R)).fail e).isDone = true ∧
    ((FutureState.pending (R := R)).cancel).isDone = true := by
  cases s with
  | pending => simp [FutureState.isDone] at h
  | resolved w => exact ⟨rfl, rfl, rfl, rfl, rfl, rfl⟩
  | failed e' => exact ⟨rfl, rfl, rfl, rfl, rfl, rfl⟩
  | cancelled => exact ⟨rfl, rfl, rfl, rfl, rfl, rfl⟩

/-- Witness for C6 at a concrete terminal Future. -/
theorem future_transitions_idempotent_witness :
    (FutureState.resolved (5 : Nat)).isDone = true ∧
    ((FutureState.resolved (5 : Nat)).resolve 7 = .resolved 5 ∧
      (FutureState.resolved (5 : Nat)).fail .timeout = .resolved 5 ∧
      (FutureState.resolved (5 : Nat)).cancel = .resolved 5 ∧
      ((FutureState.pending (R := Nat)).resolve 7).isDone = true ∧
      ((FutureState.pending (R := Nat)).fail .timeout).isDone = true ∧
      ((FutureState.pending (R := Nat)).cancel).isDone = true) :=
  ⟨by decide, future_transitions_idempotent (.resolved 5) 7 .timeout (by decide)⟩

/-- Modelled from the spec: a Task has an identity (monotonically increasing
sequence number), a zero-argument executable body, and a cooperative
cancellation flag checked before execution (§3, §4.3). The body's behaviour
is abstracted to its outcome: a value, or the message of the error it
raises. -/
structure Task (R : Type) where
  seq : Nat
  cancelRequested : Bool
  body : Except String R

/-- Modelled from the spec: the transition a Worker applies to a task's
Future (§4.3) — if the cancellation flag is already set, cancel and skip the
body; otherwise run the body, converting a raised error into fail with a
TaskError wrapping the original message, and a normal result into resolve. -/
def applyTask (s : FutureState R) (t : Task R) : FutureState R :=
  if t.cancelRequested then s.cancel
  else
    match t.body with
    | .ok v => s.resolve v
    | .error msg => s.fail (.taskError msg)

/-- Modelled from the spec: the outcome a Worker produces for a task whose
Future was still Pending when the Worker picked it up. -/
def runTask (t : Task R) : FutureState R :=
  applyTask .pending t

/-- Modelled from the spec: the Worker loop (§4.3) — repeatedly dequeue a
task and execute it; the loop never crashes on a failing body, so a Worker
given any finite stream of tasks produces one terminal Future per task. -/
def workerLoop (ts : List (Task R)) : List (FutureState R) :=
  ts.map runTask

theorem runTask_isDone (t : Task R) : (runTask t).isDone = true := by
  unfold runTask applyTask
  cases hc : t.cancelRequested with
  | true => simp [FutureState.cancel, FutureState.isDone]
  | false =>
    cases t.body <;>
      simp [FutureState.resolve, FutureState.fail, FutureState.isDone]

/-- C7: every error raised by a task body is caught at the Worker boundary
and converted into Future.fail with a TaskError wrapping the original
message; the Worker loop survives arbitrarily many failing tasks (it yields
one terminal Future per task, never exiting early and never leaving a Future
Pending), and a caller awaiting any Future produced by a Worker observes
exactly one of: a value, a TaskError, or Cancelled — never an uncaught panic
and never an unresolved outcome. -/
theorem worker_error_containment (ts : List (Task R)) (t : Task R)
    (ht : t ∈ ts) (msg : String) :
    (workerLoop ts).length = ts.length ∧
    (∀ f ∈ workerLoop ts, f.isDone = true) ∧
    (t.cancelRequested = false → t.body = .error msg →
      runTask t = .failed (.taskError msg)) ∧
    ((∃ v, (runTask t).get.1 = .ok v) ∨
      (∃ m, (runTask t).get.1 = .error (.taskError m)) ∨
      (runTask t).get.1 = .error .cancelledError) := by
  refine ⟨List.length_map _ _, ?_, ?_, ?_⟩
  · intro f hf
    obtain ⟨u, _, rfl⟩ := List.mem_map.mp hf
    exact runTask_isDone u
  · intro hc hb
    simp [runTask, applyTask, hc, hb, FutureState.fail]
  · cases hc : t.cancelRequested with
    | true =>
      refine Or.inr (Or.inr ?_)
      simp [runTask, applyTask, hc, FutureState.cancel, FutureState.get]
    | false =>
      cases hb : t.body with
      | ok v =>
        refine Or.inl ⟨v, ?_⟩
        simp [runTask, applyTask, hc, hb, FutureState.resolve, FutureState.get]
      | error m =>
        refine Or.inr (Or.inl ⟨m, ?_⟩)
        simp [runTask, applyTask, hc, hb, FutureState.fail, FutureState.get]

/-- Witness for C7 on a concrete pool of one succeeding, one failing and one
pre-cancelled task. -/
theorem worker_error_containment_witness :
    (⟨1, false, Except.error "boom"⟩ : Task Nat) ∈
      [(⟨0, false, Except.ok 3⟩ : Task Nat), ⟨1, false, Except.error "boom"⟩,
        ⟨2, true, Except.ok 0⟩] ∧
    ((workerLoop [(⟨0, false, Except.ok 3⟩ : Task Nat),
        ⟨1, false, Except.error "boom"⟩, ⟨2, true, Except.ok 0⟩]).length = 3 ∧
      (∀ f ∈ workerLoop [(⟨0, false, Except.ok 3⟩ : Task Nat),
        ⟨1, false, Except.error "boom"⟩, ⟨2, true, Except.ok 0⟩],
        f.isDone = true) ∧
      ((⟨1, false, Except.error "boom"⟩ : Task Nat).cancelRequested = false →
        (⟨1, false, Except.error "boom"⟩ : Task Nat).body = .error "boom" →
        runTask (⟨1, false, Except.error "boom"⟩ : Task Nat) =
          .failed (.taskError "boom")) ∧
      ((∃ v, (runTask (⟨1, false, Except.error "boom"⟩ : Task Nat)).get.1 =
          .ok v) ∨
        (∃ m, (runTask (⟨1, false, Except.error "boom"⟩ : Task Nat)).get.1 =
          .error (.taskError m)) ∨
        (runTask (⟨1, false, Except.error "boom"⟩ : Task Nat)).get.1 =
          .error .cancelledError)) :=
  ⟨List.mem_cons_of_mem _ (List.mem_cons_self _ _),
    worker_error_containment
      [⟨0, false, Except.ok 3⟩, ⟨1, false, Except.error "boom"⟩,
        ⟨2, true, Except.ok 0⟩]
      ⟨1, false, Except.error "boom"⟩
      (List.mem_cons_of_mem _ (List.mem_cons_self _ _)) "boom"⟩

/-- Modelled from the spec: one completion event of the pool's execution —
some Worker finishes the task with index `i` and applies the corresponding
terminal transition to that task's Future (§4.3, §4.4). Futures are kept in
a list parallel to the submission order, as required of map (§4.4). -/
def workerStep (tasks : List (Task R)) (fs : List (FutureState R)) (i : Nat) :
    List (FutureState R) :=
  match tasks[i]? with
  | some t => fs.set i (applyTask (fs.getD i .pending) t)
  | none => fs

/-- Modelled from the spec: a full graceful-shutdown run of a WorkerPool over
`tasks` (§4.4). Workers dequeue in FIFO order but race independently, so the
order in which tasks complete is an arbitrary interleaving; it is abstracted
as a completion order `co` listing task indices in the order their Futures
are written. Any pool of W ≥ 1 Workers produces some `co` that is a
permutation of the submitted indices, since graceful shutdown drains every
queued task exactly once. -/
def poolRun (tasks : List (Task R)) (co : List Nat) : List (FutureState R) :=
  co.foldl (workerStep tasks) (List.replicate tasks.length .pending)

theorem workerStep_length (tasks : List (Task R)) (fs : List (FutureState R))
    (i : Nat) : (workerStep tasks fs i).length = fs.length := by
  unfold workerStep
  cases htask : tasks[i]? with
  | some t => simp
  | none => rfl

theorem workerStep_getElem_ne (tasks : List (Task R))
    (fs : List (FutureState R)) (i j : Nat) (h : i ≠ j) :
    (workerStep tasks fs i)[j]? = fs[j]? := by
  unfold workerStep
  cases htask : tasks[i]? with
  | some t => simp [List.getElem?_set_ne h]
  | none => rfl

theorem foldl_workerStep_length (tasks : List (Task R)) (co : List Nat)
    (fs : List (FutureState R)) :
    (co.foldl (workerStep tasks) fs).length = fs.length := by
  induction co generalizing fs with
  | nil => rfl
  | cons i rest ih => rw [List.foldl_cons, ih, workerStep_length]

theorem foldl_workerStep_notMem (tasks : List (Task R)) (co : List Nat)
    (fs : List (FutureState R)) (j : Nat) (hj : j ∉ co) :
    (co.foldl (workerStep tasks) fs)[j]? = fs[j]? := by
  induction co generalizing fs with
  | nil => rfl
  | cons i rest ih =>
    rw [List.foldl_cons, ih _ (fun hm => hj (List.mem_cons_of_mem i hm)),
      workerStep_getElem_ne]
    exact fun he => hj (he ▸ List.mem_cons_self i rest)

theorem foldl_workerStep_mem (tasks : List (Task R)) (co : List Nat)
    (fs : List (FutureState R)) (j : Nat) (t : Task R) (hnd : co.Nodup)
    (hj : j ∈ co) (ht : tasks[j]? = some t) (hf : fs[j]? = some .pending) :
    (co.foldl (workerStep tasks) fs)[j]? = some (runTask t) := by
  induction co generalizing fs with
  | nil => cases hj
  | cons i rest ih =>
    obtain ⟨hni, hndr⟩ := List.nodup_cons.mp hnd
    rw [List.foldl_cons]
    rcases List.mem_cons.mp hj with rfl | hjr
    · have hlen : j < fs.length := by
        by_contra hc
        rw [List.getElem?_eq_none (Nat.le_of_not_lt hc)] at hf
        cases hf
      rw [foldl_workerStep_notMem tasks rest _ j hni]
      unfold workerStep
      rw [ht]
      have hgd : fs.getD j FutureState.pending = FutureState.pending := by
        simp [List.getD, hf]
      rw [hgd, List.getElem?_set_self hlen]
      rfl
    · have hne : i ≠ j := fun he => hni (he ▸ hjr)
      exact ih _ hndr hjr (by rw [workerStep_getElem_ne tasks fs i j hne, hf])

theorem poolRun_perm (tasks : List (Task R)) (co : List Nat)
    (h : co.Perm (List.range tasks.length)) :
    poolRun tasks co = tasks.map runTask := by
  have hnd : co.Nodup := h.nodup_iff.mpr (List.nodup_range tasks.length)
  apply List.ext_getElem?
  intro j
  by_cases hj : j < tasks.length
  · have hmem : j ∈ co := h.mem_iff.mpr (List.mem_range.mpr hj)
    rw [poolRun, foldl_workerStep_mem tasks co _ j tasks[j] hnd hmem
        (List.getElem?_eq_getElem hj)
        (by simp [List.getElem?_replicate, hj]),
      List.getElem?_map, List.getElem?_eq_getElem hj]
    rfl
  · have h1 : (poolRun tasks co)[j]? = none := by
      apply List.getElem?_eq_none
      rw [poolRun, foldl_workerStep_length, List.length_replicate]
      exact Nat.le_of_not_lt hj
    have h2 : (tasks.map runTask)[j]? = none := by
      apply List.getElem?_eq_none
      rw [List.length_map]
      exact Nat.le_of_not_lt hj
    rw [h1, h2]

/-- C1: once a graceful shutdown of a running pool completes, every one of
the N submitted tasks has its Future in a terminal state — exactly N
terminal Futures, none Pending — regardless of the completion order in which
W racing Workers (W < N allowed) finished the tasks; each Future received
exactly one terminal transition because each task index occurs exactly once
in the completion permutation, and each Future's final state is the one
produced by its own task. -/
theorem futures_terminal_after_graceful_shutdown (tasks : List (Task R))
    (co : List Nat) (h : co.Perm (List.range tasks.length)) :
    poolRun tasks co = tasks.map runTask ∧
    (poolRun tasks co).length = tasks.length ∧
    ∀ f ∈ poolRun tasks co, f.isDone = true := by
  have e := poolRun_perm tasks co h
  refine ⟨e, by rw [e, List.length_map], ?_⟩
  rw [e]
  intro f hf
  obtain ⟨u, _, rfl⟩ := List.mem_map.mp hf
  exact runTask_isDone u

/-- Witness for C1 on three concrete tasks completing in the order 2, 0, 1. -/
theorem futures_terminal_after_graceful_shutdown_witness :
    ([2, 0, 1] : List Nat).Perm (List.range 3) ∧
    (poolRun [(⟨0, false, Except.ok 1⟩ : Task Nat),
        ⟨1, false, Except.error "x"⟩, ⟨2, true, Except.ok 0⟩] [2, 0, 1] =
      [(⟨0, false, Except.ok 1⟩ : Task Nat), ⟨1, false, Except.error "x"⟩,
        ⟨2, true, Except.ok 0⟩].map runTask ∧
      (poolRun [(⟨0, false, Except.ok 1⟩ : Task Nat),
        ⟨1, false, Except.error "x"⟩, ⟨2, true, Except.ok 0⟩]
        [2, 0, 1]).length = 3 ∧
      ∀ f ∈ poolRun [(⟨0, false, Except.ok 1⟩ : Task Nat),
        ⟨1, false, Except.error "x"⟩, ⟨2, true, Except.ok 0⟩] [2, 0, 1],
        f.isDone = true) :=
  ⟨by decide,
    futures_terminal_after_graceful_shutdown
      [⟨0, false, Except.ok 1⟩, ⟨1, false, Except.error "x"⟩,
        ⟨2, true, Except.ok 0⟩] [2, 0, 1] (by decide)⟩

/-- Modelled from the spec: map over a pure body builds one task per input,
with monotonically increasing sequence numbers, no cancellation requested,
and a body that returns the function applied to the input (§4.4; the pure
bodies are the repository's `square_number` / `cpu_intensive_task` used with
Pool.map in src/30_multiprocessing.py). -/
def mkTasks (f : α → R) (xs : List α) : List (Task R) :=
  xs.enum.map (fun p => ⟨p.1, false, .ok (f p.2)⟩)

/-- Modelled from the spec: awaiting every Future in the list returned by
map, in order, after the pool has drained (each get sees a terminal
Future). -/
def awaitAll (fs : List (FutureState R)) : List (Except EngineError R) :=
  fs.map (fun f => f.get.1)

/-- Modelled from the spec: the submission side of the pool — the queue of
tasks enqueued so far, in submission order (§4.4). -/
structure SubmitQueue (R : Type) where
  queued : List (Task R)

/-- Modelled from the spec: submit appends one task at the tail of the
pool's queue (§4.4). -/
def submit (p : SubmitQueue R) (t : Task R) : SubmitQueue R :=
  ⟨p.queued ++ [t]⟩

/-- Modelled from the spec: map's submission phase is literally repeated
submit calls (§4.4). -/
def submitAll (p : SubmitQueue R) (ts : List (Task R)) : SubmitQueue R :=
  ts.foldl submit p

theorem submitAll_queued (ts : List (Task R)) (p : SubmitQueue R) :
    submitAll p ts = ⟨p.queued ++ ts⟩ := by
  induction ts generalizing p with
  | nil => simp [submitAll]
  | cons t rest ih =>
    simp only [submitAll, List.foldl_cons]
    have hrec := ih (submit p t)
    simp only [submitAll] at hrec
    rw [hrec]
    simp [submit]

theorem mkTasks_length (f : α → R) (xs : List α) :
    (mkTasks f xs).length = xs.length := by
  simp [mkTasks]

/-- C3: map over a WorkerPool is repeated submit (the queue receives the
tasks in input order appended at the tail), and for pure task bodies the
list of awaited results equals the sequential elementwise application of the
body to the inputs, whatever completion order the racing Workers produce —
the returned Future list preserves input order even though completion order
is unspecified. -/
theorem pool_map_refines_sequential_map (f : α → R) (xs : List α)
    (co : List Nat) (p : SubmitQueue R)
    (h : co.Perm (List.range xs.length)) :
    awaitAll (poolRun (mkTasks f xs) co) = (xs.map f).map Except.ok ∧
    submitAll p (mkTasks f xs) = ⟨p.queued ++ mkTasks f xs⟩ := by
  refine ⟨?_, submitAll_queued _ p⟩
  have hrun : poolRun (mkTasks f xs) co = (mkTasks f xs).map runTask :=
    poolRun_perm _ co (by rw [mkTasks_length]; exact h)
  calc awaitAll (poolRun (mkTasks f xs) co)
      = (mkTasks f xs).map (fun t => (runTask t).get.1) := by
        rw [hrun, awaitAll, List.map_map]
        rfl
    _ = xs.enum.map (fun p => Except.ok (f p.2)) := by
        rw [mkTasks, List.map_map]
        rfl
    _ = (xs.enum.map Prod.snd).map (fun x => Except.ok (f x)) := by
        rw [List.map_map]
        rfl
    _ = (xs.map f).map Except.ok := by
        rw [List.enum_map_snd, List.map_map]
        rfl

/-- Witness for C3: squaring [1, 2, 3, 4] through the pool under completion
order 3, 1, 0, 2 equals the sequential map. -/
theorem pool_map_refines_sequential_map_witness :
    ([3, 1, 0, 2] : List Nat).Perm (List.range [1, 2, 3, 4].length) ∧
    (awaitAll (poolRun (mkTasks (fun n : Nat => n * n) [1, 2, 3, 4])
        [3, 1, 0, 2]) =
      ([1, 2, 3, 4].map (fun n : Nat => n * n)).map Except.ok ∧
      submitAll ⟨[]⟩ (mkTasks (fun n : Nat => n * n) [1, 2, 3, 4]) =
        ⟨[] ++ mkTasks (fun n : Nat => n * n) [1, 2, 3, 4]⟩) :=
  ⟨by decide,
    pool_map_refines_sequential_map (fun n : Nat => n * n) [1, 2, 3, 4]
      [3, 1, 0, 2] ⟨[]⟩ (by decide)⟩

/-- Modelled from the spec: state of a CountingSemaphore(k) guarding a
critical section used by n concurrent callers (§3, §4.4; the pattern of
`limited_resource_access` in src/29_threading.py and `semaphore_example` in
src/31_asyncio.py). `current` is the permit count; `inside` records, per
caller, whether that caller currently holds a permit and is inside the
guarded section. -/
structure SemState where
  current : Nat
  inside : List Bool
deriving DecidableEq

/-- Number of callers simultaneously inside the guarded section. -/
def insideCount (s : SemState) : Nat :=
  s.inside.count true

/-- Modelled from the spec: initial state — k permits free, all n callers
outside. -/
def semInit (k n : Nat) : SemState :=
  ⟨k, List.replicate n false⟩

/-- Modelled from the spec: the reachable states of the semaphore system.
acquire blocks while current == 0, so an acquire step requires a free
permit, decrements the count and moves one caller inside; release increments
the count and moves the caller back outside (§3). -/
inductive SemReach (k n : Nat) : SemState → Prop where
  | init : SemReach k n (semInit k n)
  | acquire (s : SemState) (i : Nat) (hre : SemReach k n s)
      (hi : s.inside[i]? = some false) (hc : 0 < s.current) :
      SemReach k n ⟨s.current - 1, s.inside.set i true⟩
  | release (s : SemState) (i : Nat) (hre : SemReach k n s)
      (hi : s.inside[i]? = some true) :
      SemReach k n ⟨s.current + 1, s.inside.set i false⟩

theorem count_true_set_true (l : List Bool) (i : Nat)
    (h : l[i]? = some false) :
    (l.set i true).count true = l.count true + 1 := by
  induction l generalizing i with
  | nil => cases h
  | cons b rest ih =>
    cases i with
    | zero =>
      have hb : b = false := by simpa using h
      subst hb
      simp [List.count_cons]
    | succ j =>
      simp only [List.getElem?_cons_succ] at h
      simp only [List.set_cons_succ, List.count_cons, ih j h]
      omega

theorem count_true_set_false (l : List Bool) (i : Nat)
    (h : l[i]? = some true) :
    (l.set i false).count true + 1 = l.count true := by
  induction l generalizing i with
  | nil => cases h
  | cons b rest ih =>
    cases i with
    | zero =>
      have hb : b = true := by simpa using h
      subst hb
      simp [List.count_cons]
    | succ j =>
      simp only [List.getElem?_cons_succ] at h
      simp only [List.set_cons_succ, List.count_cons]
      have := ih j h
      omega

theorem semReach_invariant (k n : Nat) (s : SemState) (h : SemReach k n s) :
    s.current + insideCount s = k ∧ s.inside.length = n := by
  induction h with
  | init =>
    constructor
    · simp [semInit, insideCount, List.count_replicate]
    · simp [semInit]
  | acquire s i hre hi hc ih =>
    obtain ⟨ihsum, ihlen⟩ := ih
    constructor
    · simp only [insideCount] at ihsum ⊢
      rw [count_true_set_true s.inside i hi]
      omega
    · simp [ihlen]
  | release s i hre hi ih =>
    obtain ⟨ihsum, ihlen⟩ := ih
    constructor
    · simp only [insideCount] at ihsum ⊢
      have := count_true_set_false s.inside i hi
      omega
    · simp [ihlen]

/-- C2: with CountingSemaphore(k) guarding a section, in every reachable
state of any number of concurrent callers the number of callers
simultaneously inside the section never exceeds k, and the permit count
always satisfies 0 ≤ current ≤ k (the lower bound is inherent to the Nat
count). Underlying invariant: current + insideCount = k. -/
theorem semaphore_bound_invariant (k n : Nat) (s : SemState)
    (h : SemReach k n s) :
    insideCount s ≤ k ∧ s.current ≤ k := by
  have := semReach_invariant k n s h
  omega

/-- Witness for C2: after two of five callers acquire a 2-permit semaphore,
both bounds hold in the reached state. -/
theorem semaphore_bound_invariant_witness :
    insideCount ⟨0, [true, true, false, false, false]⟩ ≤ 2 ∧
    SemState.current ⟨0, [true, true, false, false, false]⟩ ≤ 2 :=
  semaphore_bound_invariant 2 5 ⟨0, [true, true, false, false, false]⟩
    (by
      have h1 : SemReach 2 5 ⟨1, [true, false, false, false, false]⟩ := by
        have h0 := SemReach.acquire (k := 2) (n := 5) (semInit 2 5) 0
          SemReach.init (by decide) (by decide)
        simpa [semInit] using h0
      have h2 := SemReach.acquire (k := 2) (n := 5)
        ⟨1, [true, false, false, false, false]⟩ 1 h1 (by decide) (by decide)
      simpa using h2)

/-- Modelled from the spec: an operation on the shared FIFO queue — a
producer enqueues an item at the tail, or a consumer dequeues the head
(§4.1; the put/get pattern of queue.Queue in
src/70_queues_and_synchronization.py and of the producer/consumer queues in
src/30_multiprocessing.py). -/
inductive QOp (α : Type) where
  | put (a : α)
  | get

/-- Items enqueued by a trace of queue operations, in submission order. -/
def putsOf : List (QOp α) → List α
  | [] => []
  | .put a :: ops => a :: putsOf ops
  | .get :: ops => putsOf ops

/-- Modelled from the spec: running a trace of put/get operations against
the queue. State: the queue contents `q` (head = next to dequeue) and the
items dequeued so far `out`, in dequeue order. put appends at the tail; get
removes the head; a get scheduled while the queue is empty blocks, i.e.
dequeues nothing. Returns the final queue contents and the dequeue
sequence. -/
def runQueue : List (QOp α) → List α → List α → List α × List α
  | [], q, out => (q, out)
  | .put a :: ops, q, out => runQueue ops (q ++ [a]) out
  | .get :: ops, q, out =>
    match q with
    | [] => runQueue ops [] out
    | a :: rest => runQueue ops rest (out ++ [a])

theorem runQueue_order (ops : List (QOp α)) (q out : List α) :
    (runQueue ops q out).2 ++ (runQueue ops q out).1 =
      out ++ q ++ putsOf ops := by
  induction ops generalizing q out with
  | nil => simp [runQueue, putsOf]
  | cons op rest ih =>
    cases op with
    | put a =>
      simp only [runQueue, putsOf, ih (q ++ [a]) out]
      simp
    | get =>
      cases q with
      | nil => simp [runQueue, putsOf, ih [] out]
      | cons a qrest =>
        simp only [runQueue, putsOf, ih qrest (out ++ [a])]
        simp

/-- C4: the shared queue is FIFO — for any trace of interleaved put/get
operations starting from the empty queue, the sequence of dequeued items
followed by the items still queued equals exactly the sequence of enqueued
items in submission order; hence the dequeue sequence is the in-order prefix
of the enqueue sequence, so whenever t1 is put before t2, t1 is dequeued
before t2, and a single consumer observes items in exactly production
order. -/
theorem queue_fifo_order (ops : List (QOp α)) :
    (runQueue ops [] []).2 ++ (runQueue ops [] []).1 = putsOf ops ∧
    (runQueue ops [] []).2 = (putsOf ops).take (runQueue ops [] []).2.length := by
  have h := runQueue_order ops [] []
  simp only [List.nil_append, List.append_nil] at h
  refine ⟨h, ?_⟩
  rw [← h, List.take_left]

/-- Modelled from the spec: BoundedQueue<T> — an ordered sequence of items
with a capacity and a monotonic `closed` flag (§3, §4.1). Blocking of put at
capacity is a scheduling concern outside this state model; the only put
failure is QueueClosed. -/
structure BQueue (α : Type) where
  capacity : Nat
  items : List α
  closed : Bool
deriving DecidableEq

/-- Modelled from the spec: put appends at the tail; after close it never
succeeds and signals QueueClosed — the only failure mode (§4.1). -/
def bput (q : BQueue α) (a : α) : Except EngineError (BQueue α) :=
  if q.closed then .error .queueClosed
  else .ok { q with items := q.items ++ [a] }

/-- Modelled from the spec: close sets the monotonic closed flag; items
already queued stay retrievable (§4.1). -/
def bclose (q : BQueue α) : BQueue α :=
  { q with closed := true }

/-- Modelled from the spec: outcome of one get call — the head item, the
immediate empty-and-closed sentinel (ok=false), or blocking because the
queue is empty but still open (§4.1). -/
inductive GetOutcome (α : Type) where
  | item (a : α)
  | closedEmpty
  | wouldBlock
deriving DecidableEq

/-- Modelled from the spec: get returns the head item when one is queued; on
an empty closed queue it returns the empty-and-closed sentinel immediately,
without blocking and without changing the queue; on an empty open queue it
blocks (§4.1). -/
def bget (q : BQueue α) : GetOutcome α × BQueue α :=
  match q.items with
  | a :: rest => (.item a, { q with items := rest })
  | [] => if q.closed then (.closedEmpty, q) else (.wouldBlock, q)

/-- Repeatedly call get, collecting items until get stops yielding one; the
fuel equals the queue length, which suffices since each successful get
removes the head. -/
def drainFrom : Nat → BQueue α → List α
  | 0, _ => []
  | fuel + 1, q =>
    match bget q with
    | (.item a, q') => a :: drainFrom fuel q'
    | (.closedEmpty, _) => []
    | (.wouldBlock, _) => []

/-- Drain a queue by repeated get calls. -/
def drain (q : BQueue α) : List α :=
  drainFrom q.items.length q

theorem drainFrom_items (fuel : Nat) (q : BQueue α)
    (h : q.items.length ≤ fuel) : drainFrom fuel q = q.items := by
  induction fuel generalizing q with
  | zero =>
    cases hq : q.items with
    | nil => simp [drainFrom]
    | cons a rest => rw [hq] at h; simp at h
  | succ m ih =>
    cases hq : q.items with
    | nil =>
      unfold drainFrom bget
      rw [hq]
      cases hc : q.closed <;> simp
    | cons a rest =>
      unfold drainFrom bget
      rw [hq]
      simp only []
      rw [ih { q with items := rest } (by rw [hq] at h; simpa using h)]

/-- C8: after close() every subsequent put fails with QueueClosed (and
QueueClosed is the only put failure mode); close is idempotent; get still
returns the items already enqueued, in FIFO order, until the queue is
drained; and once the closed queue is empty, get immediately returns the
empty-and-closed sentinel without blocking and without touching the
queue. -/
theorem bounded_queue_close_semantics (q : BQueue α) (a : α) :
    bput (bclose q) a = .error .queueClosed ∧
    (∀ e, bput q a = .error e → e = .queueClosed) ∧
    bclose (bclose q) = bclose q ∧
    drain (bclose q) = q.items ∧
    (q.items = [] → bget (bclose q) = (.closedEmpty, bclose q)) := by
  refine ⟨by simp [bput, bclose], ?_, by simp [bclose], ?_, ?_⟩
  · intro e he
    by_cases hc : q.closed
    · exact (by simpa [bput, hc] using he : EngineError.queueClosed = e).symm
    · simp [bput, hc] at he
  · exact drainFrom_items _ _ (by simp [bclose])
  · intro hempty
    simp [bget, bclose, hempty]

/-- Witness for C8 on a concrete closed queue holding [1, 2] and a concrete
empty queue. -/
theorem bounded_queue_close_semantics_witness :
    bput (bclose ⟨2, [1, 2], false⟩) (7 : Nat) = .error .queueClosed ∧
    drain (bclose (⟨2, [1, 2], false⟩ : BQueue Nat)) = [1, 2] ∧
    EngineError.queueClosed = EngineError.queueClosed ∧
    bget (bclose (⟨2, [], false⟩ : BQueue Nat)) =
      (.closedEmpty, bclose ⟨2, [], false⟩) :=
  ⟨(bounded_queue_close_semantics ⟨2, [1, 2], false⟩ 7).1,
    (bounded_queue_close_semantics (⟨2, [1, 2], false⟩ : BQueue Nat) 7).2.2.2.1,
    (bounded_queue_close_semantics (⟨2, [], true⟩ : BQueue Nat) 7).2.1
      .queueClosed rfl,
    (bounded_queue_close_semantics (⟨2, [], false⟩ : BQueue Nat) 7).2.2.2.2 rfl⟩

/-- Embedding of `producer` from src/30_multiprocessing.py (and its async
twin in src/31_asyncio.py): puts each item of its input list into the queue
in order, then puts one None sentinel to signal completion. The value is the
sequence of puts, in order. -/
def producer (items : List Nat) : List (Option Nat) :=
  items.map some ++ [none]

/-- Embedding of `consumer` from src/30_multiprocessing.py (and its async
twin in src/31_asyncio.py): loop — get an item, break if it is None,
otherwise process it. The argument is the FIFO stream of values the
successive get calls return; the value is the list of items processed, in
order. An exhausted stream ends the loop with nothing further processed (a
get with no producer left would block forever). -/
def consumer : List (Option Nat) → List Nat
  | [] => []
  | none :: _ => []
  | some x :: rest => x :: consumer rest

theorem count_none_map_some (l : List Nat) :
    (l.map some).count none = 0 := by
  induction l with
  | nil => rfl
  | cons x rest ih => simp [List.count_cons, ih]

theorem consumer_stops_at_sentinel (items : List Nat)
    (rest : List (Option Nat)) :
    consumer (items.map some ++ none :: rest) = items := by
  induction items with
  | nil => rfl
  | cons x xs ih => simp [consumer, ih]

/-- C9: the producer enqueues each element of its input list in order and
then exactly one terminating None sentinel, and the consumer processes
exactly the elements of the input list, in order, exiting on the sentinel
without processing it as a data item (anything after the sentinel is never
consumed) — so the consumer loop terminates. -/
theorem producer_consumer_sentinel (items : List Nat)
    (rest : List (Option Nat)) :
    producer items = items.map some ++ [none] ∧
    (producer items).count none = 1 ∧
    consumer (producer items) = items ∧
    consumer (items.map some ++ none :: rest) = items := by
  refine ⟨rfl, ?_, consumer_stops_at_sentinel items [],
    consumer_stops_at_sentinel items rest⟩
  simp [producer, List.count_append, count_none_map_some]

/-- Two's-complement reduction of an integer into the value range of a
32-bit signed C int, [-2^31, 2^31): the arithmetic multiprocessing.Array('i')
elements obey, since ctypes stores c_int values with silent wraparound and
no overflow checking. -/
def wrap32 (z : Int) : Int :=
  (z + 2147483648) % 4294967296 - 2147483648

/-- The body of the loop in `increment_array` from
src/30_multiprocessing.py: under the shared lock, add 1 to the element at
`index` of the shared array. The shared 'i'-typed array is modelled as a
list of integers whose writes are reduced by wrap32, matching the c_int
elements' silent 32-bit wraparound; reads use getD with default 0, and
writing beyond the array leaves it unchanged. -/
def incrOnce (index : Nat) (a : List Int) : List Int :=
  a.set index (wrap32 (a.getD index 0 + 1))

/-- Embedding of `increment_array` from src/30_multiprocessing.py: run the
locked single-element c_int increment 1000 times. -/
def increment_array (arr : List Int) (index : Nat) : List Int :=
  (incrOnce index)^[1000] arr

theorem getD_set_self (l : List Int) (i : Nat) (v : Int) (h : i < l.length) :
    (l.set i v).getD i 0 = v := by
  rw [List.getD_eq_getElem?_getD, List.getElem?_set_self h]
  rfl

theorem getD_set_ne (l : List Int) (i j : Nat) (v : Int) (h : j ≠ i) :
    (l.set i v).getD j 0 = l.getD j 0 := by
  rw [List.getD_eq_getElem?_getD, List.getD_eq_getElem?_getD,
    List.getElem?_set_ne (fun he => h he.symm)]

theorem wrap32_add_one (z : Int) : wrap32 (wrap32 z + 1) = wrap32 (z + 1) := by
  unfold wrap32
  omega

theorem wrap32_of_range (z : Int) (hlo : -2147483648 ≤ z)
    (hhi : z < 2147483648) : wrap32 z = z := by
  unfold wrap32
  omega

theorem iterate_incrOnce (index m : Nat) (arr : List Int)
    (h : index < arr.length) :
    (incrOnce index)^[m + 1] arr =
      arr.set index (wrap32 (arr.getD index 0 + (m + 1 : Nat))) := by
  induction m with
  | zero => simp only [Nat.zero_add, Function.iterate_one, incrOnce,
      Nat.cast_one]
  | succ k ih =>
    rw [Function.iterate_succ_apply', ih]
    unfold incrOnce
    rw [List.set_set]
    congr 1
    rw [getD_set_self arr index _ h, wrap32_add_one]
    congr 1
    push_cast
    ring

theorem increment_array_closed (arr : List Int) (index : Nat)
    (h : index < arr.length) :
    increment_array arr index =
      arr.set index (wrap32 (arr.getD index 0 + 1000)) := by
  have hc := iterate_incrOnce index 999 arr h
  have he : (999 : Nat) + 1 = 1000 := rfl
  rw [he] at hc
  have hcast : ((1000 : Nat) : Int) = (1000 : Int) := rfl
  rw [hcast] at hc
  show (incrOnce index)^[1000] arr = _
  exact hc

/-- C10 counterexample: the claim's unbounded "adding exactly 1000" is false
of the source at wrap-range inputs. At INT_MAX = 2^31 - 1 the c_int
arithmetic of the shared array wraps silently, so the element does not
become its old value plus 1000 (it becomes -2147482649). -/
theorem increment_array_overflow_counterexample :
    (increment_array [2147483647] 0).getD 0 0 ≠ 2147483647 + 1000 := by
  rw [increment_array_closed [2147483647] 0 (by decide),
    getD_set_self [2147483647] 0 _ (by decide)]
  decide

/-- C10 (amended): increment_array mutates only the element at `index` of
the shared array, adding 1000 to it in the array's wrapping 32-bit signed
c_int arithmetic — the new value is the two's-complement reduction of
old + 1000, which equals old + 1000 exactly whenever that sum stays in
range — and leaving every other element (and the length) unchanged; four
runs on the distinct indices 0..3 starting from [0, 0, 0, 0] leave every
element equal to exactly 1000. -/
theorem increment_array_wrap_frame (arr : List Int) (index : Nat)
    (h : index < arr.length) :
    (increment_array arr index).length = arr.length ∧
    (increment_array arr index).getD index 0 =
      wrap32 (arr.getD index 0 + 1000) ∧
    (∀ j, j ≠ index → (increment_array arr index).getD j 0 = arr.getD j 0) ∧
    (∀ z : Int, -2147483648 ≤ z → z + 1000 < 2147483648 →
      wrap32 (z + 1000) = z + 1000) ∧
    increment_array (increment_array (increment_array
      (increment_array [0, 0, 0, 0] 0) 1) 2) 3 = [1000, 1000, 1000, 1000] := by
  rw [increment_array_closed arr index h]
  refine ⟨by simp, getD_set_self arr index _ h,
    fun j hj => getD_set_ne arr index j _ hj,
    fun z hlo hhi => wrap32_of_range (z + 1000) (by omega) hhi, ?_⟩
  have e0 : increment_array [0, 0, 0, 0] 0 = [1000, 0, 0, 0] := by
    rw [increment_array_closed [0, 0, 0, 0] 0 (by decide)]
    decide
  have e1 : increment_array [1000, 0, 0, 0] 1 = [1000, 1000, 0, 0] := by
    rw [increment_array_closed [1000, 0, 0, 0] 1 (by decide)]
    decide
  have e2 : increment_array [1000, 1000, 0, 0] 2 = [1000, 1000, 1000, 0] := by
    rw [increment_array_closed [1000, 1000, 0, 0] 2 (by decide)]
    decide
  have e3 : increment_array [1000, 1000, 1000, 0] 3 =
      [1000, 1000, 1000, 1000] := by
    rw [increment_array_closed [1000, 1000, 1000, 0] 3 (by decide)]
    decide
  rw [e0, e1, e2, e3]

/-- Witness for C10 at index 2 of a concrete four-element array, including a
discharged instance of the in-range conjunct at z = 0. -/
theorem increment_array_wrap_frame_witness :
    2 < ([0, 0, 0, 0] : List Int).length ∧
    ((increment_array [0, 0, 0, 0] 2).length =
        ([0, 0, 0, 0] : List Int).length ∧
      (increment_array [0, 0, 0, 0] 2).getD 2 0 =
        wrap32 (([0, 0, 0, 0] : List Int).getD 2 0 + 1000) ∧
      (∀ j, j ≠ 2 → (increment_array [0, 0, 0, 0] 2).getD j 0 =
        ([0, 0, 0, 0] : List Int).getD j 0) ∧
      increment_array (increment_array (increment_array
        (increment_array [0, 0, 0, 0] 0) 1) 2) 3 =
        [1000, 1000, 1000, 1000]) ∧
    wrap32 ((0 : Int) + 1000) = (0 : Int) + 1000 :=
  ⟨by decide,
    ⟨(increment_array_wrap_frame [0, 0, 0, 0] 2 (by decide)).1,
      (increment_array_wrap_frame [0, 0, 0, 0] 2 (by decide)).2.1,
      (increment_array_wrap_frame [0, 0, 0, 0] 2 (by decide)).2.2.1,
      (increment_array_wrap_frame [0, 0, 0, 0] 2 (by decide)).2.2.2.2⟩,
    (increment_array_wrap_frame [0, 0, 0, 0] 2 (by decide)).2.2.2.1 0
      (by decide) (by decide)⟩

end LearnPython
